import Mathlib

/-!
Shallow embedding of the search-server program (`src/search_server3.cpp`):
an in-memory inverted index with TF-IDF ranking.  Strings are modelled as
lists of characters, the C++ ordered maps (`std::map`, `std::set`) as
association lists with unique keys, `double` arithmetic as exact arithmetic
(term frequencies in `ℚ`, relevances in `ℝ` with `Real.log` for `log`), and
throwing functions as `Except`-valued functions.
-/

set_option maxHeartbeats 1000000

namespace SearchServer3

/-- A word (C++ `std::string`) as a list of characters. -/
abbrev Word := List Char

/-- Association-list lookup: the model of `std::map::at` / `count`. -/
def alookup {α β : Type} [DecidableEq α] : List (α × β) → α → Option β
  | [], _ => none
  | (k, v) :: rest, a => if k = a then some v else alookup rest a

/-- Set-like insertion into a list, keeping the first occurrence:
the model of `std::set::insert`. -/
def insertUnique {α : Type} [DecidableEq α] (l : List α) (a : α) : List α :=
  if a ∈ l then l else l ++ [a]

/-- `SplitIntoWords`'s loop: `word` is the buffer accumulated so far. -/
def splitAux : List Char → Word → List Word
  | [], word => if word = [] then [] else [word]
  | c :: cs, word =>
    if c = ' ' then
      if word = [] then splitAux cs [] else word :: splitAux cs []
    else splitAux cs (word ++ [c])

/-- `SplitIntoWords`: split on spaces, dropping empty tokens. -/
def SplitIntoWords (text : List Char) : List Word :=
  splitAux text []

/-- `IsValidWord`: no character in the ASCII control range `0x00`–`0x1F`. -/
def IsValidWord (word : Word) : Bool :=
  !(word.any (fun c => decide (c.toNat < 32)))

/-- `MakeUniqueNonEmptyStrings`: drop empty strings, deduplicate. -/
def MakeUniqueNonEmptyStrings (strings : List Word) : List Word :=
  strings.foldl (fun acc str => if str = [] then acc else insertUnique acc str) []

/-- `DocumentStatus`. -/
inductive DocumentStatus : Type where
  | ACTUAL
  | IRRELEVANT
  | BANNED
  | REMOVED
deriving DecidableEq

/-- Per-document data stored in `documents_`. -/
structure DocumentData : Type where
  rating : Int
  status : DocumentStatus
deriving DecidableEq

/-- A ranking result entry (the C++ `Document` struct). -/
structure Document : Type where
  id : Int
  relevance : ℝ
  rating : Int

/-- The inverted index `word_to_document_freqs_`:
word → (document id → term frequency). -/
abbrev Index := List (Word × List (Int × ℚ))

/-- The state of a `SearchServer`. -/
structure Server : Type where
  stop_words_ : List Word
  word_to_document_freqs_ : Index
  documents_ : List (Int × DocumentData)
  ids_ : List Int

/-- The two `SearchServer` constructors: stop words must all be valid. -/
def mkSearchServer (stop_words : List Word) : Except String Server :=
  if stop_words.all IsValidWord then
    .ok ⟨MakeUniqueNonEmptyStrings stop_words, [], [], []⟩
  else .error "Bad constructors stop arguments"

/-- The constructor taking a single whitespace-delimited string. -/
def mkSearchServerFromText (text : List Char) : Except String Server :=
  mkSearchServer (SplitIntoWords text)

/-- `IsStopWord`. -/
def IsStopWord (s : Server) (word : Word) : Bool :=
  decide (word ∈ s.stop_words_)

/-- `GetDocumentCount`. -/
def GetDocumentCount (s : Server) : Nat :=
  s.documents_.length

/-- `GetDocumentId`. -/
def GetDocumentId (s : Server) (index : Int) : Except String Int :=
  if 0 ≤ index ∧ index < (GetDocumentCount s : Int) then
    .ok (s.ids_.getD index.toNat 0)
  else .error "Wrong index of document"

/-- The loop of `SplitIntoWordsNoStop`: validate each token, drop stop
words; an invalid token aborts the whole call. -/
def noStopLoop (s : Server) : List Word → Except String (List Word)
  | [] => .ok []
  | w :: ws =>
    if IsValidWord w = false then .error "Invalid word try to add"
    else if IsStopWord s w then noStopLoop s ws
    else (noStopLoop s ws).map (fun rest => w :: rest)

/-- `SplitIntoWordsNoStop`. -/
def SplitIntoWordsNoStop (s : Server) (text : List Char) : Except String (List Word) :=
  noStopLoop s (SplitIntoWords text)

/-- `ComputeAverageRating`: truncating integer mean, 0 for no ratings. -/
def ComputeAverageRating (ratings : List Int) : Int :=
  if ratings = [] then 0
  else Int.tdiv (ratings.foldl (fun acc r => acc + r) 0) (ratings.length : Int)

/-- Add `x` to the value stored at `id`, inserting `(id, x)` if absent:
the model of `m[id] += x` on a `std::map` with default-constructed values. -/
def bumpAdd {β : Type} [Add β] : List (Int × β) → Int → β → List (Int × β)
  | [], id, x => [(id, x)]
  | (i, v) :: rest, id, x =>
    if i = id then (i, v + x) :: rest else (i, v) :: bumpAdd rest id x

/-- `word_to_document_freqs_[word][document_id] += inv`. -/
def addWordFreq : Index → Word → Int → ℚ → Index
  | [], w, id, inv => [(w, [(id, inv)])]
  | (w0, ps) :: rest, w, id, inv =>
    if w0 = w then (w0, bumpAdd ps id inv) :: rest
    else (w0, ps) :: addWordFreq rest w id inv

/-- The posting-insertion loop of `AddDocument`. -/
def addAllWords (document_id : Int) (inv : ℚ) : List Word → Index → Index
  | [], ix => ix
  | w :: ws, ix => addAllWords document_id inv ws (addWordFreq ix w document_id inv)

/-- `AddDocument`.  On failure the pair's second component carries the
exception message and the first component is the state at the throw
point (which the code reaches before any mutation). -/
def AddDocument (s : Server) (document_id : Int) (document : List Char)
    (status : DocumentStatus) (ratings : List Int) : Server × Option String :=
  if (alookup s.documents_ document_id).isSome then
    (s, some "Document ID is already exist")
  else if document_id < 0 then
    (s, some "Document ID is negative")
  else
    match SplitIntoWordsNoStop s document with
    | .error e => (s, some e)
    | .ok words =>
      let inv_word_count : ℚ := 1 / (words.length : ℚ)
      ({ stop_words_ := s.stop_words_,
         word_to_document_freqs_ := addAllWords document_id inv_word_count words s.word_to_document_freqs_,
         documents_ := s.documents_ ++ [(document_id, ⟨ComputeAverageRating ratings, status⟩)],
         ids_ := s.ids_ ++ [document_id] }, none)

/-- `QueryWord`. -/
structure QueryWord : Type where
  data : Word
  is_minus : Bool
  is_stop : Bool
deriving DecidableEq

/-- Strip at most one leading `'-'` from a token. -/
def stripMinusOne (text : Word) : Word :=
  if text.head? = some '-' then text.tail else text

/-- `ParseQueryWord`. -/
def ParseQueryWord (s : Server) (text : Word) : Except String QueryWord :=
  let is_minus : Bool := text.head? = some '-'
  let t : Word := stripMinusOne text
  if t = [] ∨ t.head? = some '-' ∨ IsValidWord t = false then
    .error "Invalid word try to request"
  else .ok ⟨t, is_minus, IsStopWord s t⟩

/-- `Query`: the three disjoint term sets. -/
structure Query : Type where
  plus_words : List Word
  minus_words : List Word
  stop_words : List Word
deriving DecidableEq

/-- The loop of `ParseQuery` over the query's tokens. -/
def parseQueryLoop (s : Server) : List Word → Query → Except String Query
  | [], q => .ok q
  | word :: ws, q =>
    match ParseQueryWord s word with
    | .error e => .error e
    | .ok query_word =>
      if query_word.data = [] then .ok ⟨[], [], []⟩
      else if query_word.is_stop = false then
        if query_word.is_minus then
          parseQueryLoop s ws
            { q with minus_words := insertUnique q.minus_words query_word.data }
        else
          parseQueryLoop s ws
            { q with plus_words := insertUnique q.plus_words query_word.data }
      else
        parseQueryLoop s ws
          { q with stop_words := insertUnique q.stop_words word }

/-- `ParseQuery`. -/
def ParseQuery (s : Server) (text : List Char) : Except String Query :=
  parseQueryLoop s (SplitIntoWords text) ⟨[], [], []⟩

/-- `documents_.at(id)` as used by ranking and matching (total model;
every reachable call site looks up a present id). -/
def docDataOf (s : Server) (id : Int) : DocumentData :=
  (alookup s.documents_ id).getD ⟨0, DocumentStatus.ACTUAL⟩

/-- Whether a word's postings in the inverted index contain a document:
`word_to_document_freqs_.count(word)` followed by
`word_to_document_freqs_.at(word).count(document_id)`. -/
def hasPosting (s : Server) (word : Word) (document_id : Int) : Bool :=
  match alookup s.word_to_document_freqs_ word with
  | none => false
  | some ps => (alookup ps document_id).isSome

/-- `MatchDocument`. -/
def MatchDocument (s : Server) (raw_query : List Char) (document_id : Int) :
    Except String (List Word × DocumentStatus) :=
  if (alookup s.documents_ document_id).isNone then
    .error "Wrong document ID (it has no exist)"
  else
    match ParseQuery s raw_query with
    | .error e => .error e
    | .ok query =>
      if query.plus_words = [] ∧ query.minus_words = [] ∧ query.stop_words ≠ [] then
        .ok ([], DocumentStatus.ACTUAL)
      else
        let matched_words := query.plus_words.filter (fun w => hasPosting s w document_id)
        let cleared := query.minus_words.any (fun w => hasPosting s w document_id)
        .ok (if cleared then [] else matched_words, (docDataOf s document_id).status)

/-- `MAX_RESULT_DOCUMENT_COUNT`. -/
def MAX_RESULT_DOCUMENT_COUNT : Nat := 5

/-- `EPSILON`. -/
noncomputable def EPSILON : ℝ := 1e-6

/-- A document predicate `(id, status, rating) → bool`. -/
abbrev DocumentPredicate := Int → DocumentStatus → Int → Bool

/-- `ComputeWordInverseDocumentFreq`:
`log(GetDocumentCount() * 1.0 / word_to_document_freqs_.at(word).size())`.
Callers guarantee the word is present in the index. -/
noncomputable def ComputeWordInverseDocumentFreq (s : Server) (word : Word) : ℝ :=
  Real.log ((GetDocumentCount s : ℝ) /
    (((alookup s.word_to_document_freqs_ word).getD []).length : ℝ))

/-- The inner loop of `FindAllDocuments` over one plus word's postings:
accumulate `term_freq * inverse_document_freq` for every document
accepted by the predicate. -/
noncomputable def processPostings (s : Server) (pred : DocumentPredicate) (idf : ℝ) :
    List (Int × ℚ) → List (Int × ℝ) → List (Int × ℝ)
  | [], m => m
  | (document_id, term_freq) :: ps, m =>
    if pred document_id (docDataOf s document_id).status (docDataOf s document_id).rating then
      processPostings s pred idf ps (bumpAdd m document_id ((term_freq : ℝ) * idf))
    else processPostings s pred idf ps m

/-- The plus-word loop of `FindAllDocuments`: a word absent from the
index is skipped. -/
noncomputable def processPlusWords (s : Server) (pred : DocumentPredicate) :
    List Word → List (Int × ℝ) → List (Int × ℝ)
  | [], m => m
  | word :: ws, m =>
    match alookup s.word_to_document_freqs_ word with
    | none => processPlusWords s pred ws m
    | some ps =>
      processPlusWords s pred ws
        (processPostings s pred (ComputeWordInverseDocumentFreq s word) ps m)

/-- `document_to_relevance.erase(document_id)`. -/
def eraseId {β : Type} (m : List (Int × β)) (id : Int) : List (Int × β) :=
  m.filter (fun p => decide (p.1 ≠ id))

/-- The minus-word loop of `FindAllDocuments`: erase every document hit
by a forbidden term. -/
def processMinusWords {β : Type} (s : Server) :
    List Word → List (Int × β) → List (Int × β)
  | [], m => m
  | word :: ws, m =>
    match alookup s.word_to_document_freqs_ word with
    | none => processMinusWords s ws m
    | some ps => processMinusWords s ws (ps.foldl (fun acc p => eraseId acc p.1) m)

/-- `FindAllDocuments`. -/
noncomputable def FindAllDocuments (s : Server) (query : Query) (pred : DocumentPredicate) :
    List Document :=
  let afterPlus := processPlusWords s pred query.plus_words []
  let afterMinus := processMinusWords s query.minus_words afterPlus
  afterMinus.map (fun p => ⟨p.1, p.2, (docDataOf s p.1).rating⟩)

/-- The sort comparator of `FindTopDocuments`: relevance descending,
rating descending within `EPSILON`. -/
noncomputable def docLt (lhs rhs : Document) : Prop :=
  if |lhs.relevance - rhs.relevance| < EPSILON then lhs.rating > rhs.rating
  else lhs.relevance > rhs.relevance

open Classical in
/-- Insertion step of the model of `std::sort` under `docLt`. -/
noncomputable def sortInsert (x : Document) : List Document → List Document
  | [] => [x]
  | y :: ys => if docLt x y then x :: y :: ys else y :: sortInsert x ys

/-- The model of `std::sort` under `docLt`: any comparator-sorted
permutation is a faithful model, insertion sort is used here. -/
noncomputable def sortDocs : List Document → List Document
  | [] => []
  | x :: xs => sortInsert x (sortDocs xs)

/-- `FindTopDocuments` (predicate form; the other overloads delegate here). -/
noncomputable def FindTopDocuments (s : Server) (raw_query : List Char)
    (document_predicate : DocumentPredicate) : Except String (List Document) :=
  if IsValidWord raw_query = false then .error "Invalid requests text"
  else if raw_query = [] then .error "Raw query is empty"
  else
    match ParseQuery s raw_query with
    | .error e => .error e
    | .ok query =>
      if query.plus_words = [] ∧ query.minus_words = [] ∧ query.stop_words ≠ [] then
        .ok []
      else
        let result := sortDocs (FindAllDocuments s query document_predicate)
        .ok (if MAX_RESULT_DOCUMENT_COUNT < result.length then
               result.take MAX_RESULT_DOCUMENT_COUNT
             else result)

/-- The status-filtering overload of `FindTopDocuments`. -/
noncomputable def FindTopDocumentsByStatus (s : Server) (raw_query : List Char)
    (status : DocumentStatus) : Except String (List Document) :=
  FindTopDocuments s raw_query
    (fun _ document_status _ => decide (document_status = status))

/-- The no-argument overload of `FindTopDocuments`: default status `ACTUAL`. -/
noncomputable def FindTopDocumentsDefault (s : Server) (raw_query : List Char) :
    Except String (List Document) :=
  FindTopDocumentsByStatus s raw_query DocumentStatus.ACTUAL

/-- The contribution of one required term to a document's relevance, as
the spec states it: term frequency times `ln(total documents / documents
containing the term)`, and `0` for a term absent from the index. -/
noncomputable def termContribution (s : Server) (id : Int) (word : Word) : ℝ :=
  match alookup s.word_to_document_freqs_ word with
  | none => 0
  | some ps =>
    (((alookup ps id).getD 0 : ℚ) : ℝ) *
      Real.log ((GetDocumentCount s : ℝ) / (ps.length : ℝ))

/-- The spec's relevance formula: the sum of `termContribution` over the
query's required terms. -/
noncomputable def relevanceSpec (s : Server) (query : Query) (id : Int) : ℝ :=
  (query.plus_words.map (termContribution s id)).sum

/-- Well-formedness of the inverted index: outer and inner keys are
unique (as they are for `std::map`). -/
def WellFormed (s : Server) : Prop :=
  (s.word_to_document_freqs_.map Prod.fst).Nodup ∧
    ∀ e ∈ s.word_to_document_freqs_, (e.2.map Prod.fst).Nodup

/-- Server states reachable from a constructor by successful
`AddDocument` calls. -/
inductive Reachable : Server → Prop where
  | init : ∀ stop_words s, mkSearchServer stop_words = .ok s → Reachable s
  | step : ∀ s document_id document status ratings s',
      Reachable s →
      AddDocument s document_id document status ratings = (s', none) →
      Reachable s'

/-! ### Helper lemmas -/

theorem alookup_append {α β : Type} [DecidableEq α] (l1 l2 : List (α × β)) (a : α) :
    alookup (l1 ++ l2) a =
      match alookup l1 a with
      | some v => some v
      | none => alookup l2 a := by
  induction l1 with
  | nil => simp [alookup]
  | cons p rest ih =>
    obtain ⟨k, v⟩ := p
    by_cases h : k = a <;> simp [alookup, h, ih]

theorem alookup_mem {α β : Type} [DecidableEq α] {l : List (α × β)} {a : α} {v : β}
    (h : alookup l a = some v) : (a, v) ∈ l := by
  induction l with
  | nil => simp [alookup] at h
  | cons p rest ih =>
    obtain ⟨k, w⟩ := p
    by_cases hk : k = a
    · subst hk
      simp [alookup] at h
      subst h
      exact List.mem_cons_self _ _
    · simp [alookup, hk] at h
      exact List.mem_cons_of_mem _ (ih h)

theorem mem_keys_of_alookup {α β : Type} [DecidableEq α] {l : List (α × β)} {a : α} {v : β}
    (h : alookup l a = some v) : a ∈ l.map Prod.fst := by
  exact List.mem_map.mpr ⟨(a, v), alookup_mem h, rfl⟩

theorem alookup_eq_none_of_not_mem {α β : Type} [DecidableEq α] {l : List (α × β)} {a : α}
    (h : a ∉ l.map Prod.fst) : alookup l a = none := by
  induction l with
  | nil => rfl
  | cons p rest ih =>
    obtain ⟨k, w⟩ := p
    have hka : ¬ (k = a) := fun hk => h (by simp [hk])
    have hrest : a ∉ rest.map Prod.fst := fun hm => h (by simp [hm])
    simp [alookup, hka, ih hrest]

theorem alookup_of_mem_nodup {α β : Type} [DecidableEq α] {l : List (α × β)} {a : α} {v : β}
    (hnd : (l.map Prod.fst).Nodup) (hm : (a, v) ∈ l) : alookup l a = some v := by
  induction l with
  | nil => simp at hm
  | cons p rest ih =>
    obtain ⟨k, w⟩ := p
    rw [List.map_cons, List.nodup_cons] at hnd
    rcases List.mem_cons.mp hm with h | h
    · cases h
      simp [alookup]
    · have hka : ¬ (k = a) := by
        intro hk
        subst hk
        exact hnd.1 (List.mem_map.mpr ⟨(k, v), h, rfl⟩)
      simp [alookup, hka]
      exact ih hnd.2 h

theorem mem_insertUnique {α : Type} [DecidableEq α] (l : List α) (a b : α) :
    b ∈ insertUnique l a ↔ b = a ∨ b ∈ l := by
  unfold insertUnique
  by_cases h : a ∈ l
  · rw [if_pos h]
    constructor
    · exact Or.inr
    · rintro (rfl | hb)
      · exact h
      · exact hb
  · rw [if_neg h]
    simp only [List.mem_append, List.mem_singleton]
    tauto

theorem insertUnique_ne_nil {α : Type} [DecidableEq α] (l : List α) (a : α) :
    insertUnique l a ≠ [] := by
  unfold insertUnique
  by_cases h : a ∈ l
  · simp [h]
    intro hl
    subst hl
    simp at h
  · simp [h]

theorem bumpAdd_lookup_self_none {β : Type} [Add β] {m : List (Int × β)} {id : Int} (x : β)
    (h : alookup m id = none) : alookup (bumpAdd m id x) id = some x := by
  induction m with
  | nil => simp [bumpAdd, alookup]
  | cons p rest ih =>
    obtain ⟨i, v⟩ := p
    by_cases hi : i = id
    · subst hi
      simp [alookup] at h
    · simp [alookup, hi] at h
      simp [bumpAdd, hi, alookup]
      exact ih h

theorem bumpAdd_lookup_self_some {β : Type} [Add β] {m : List (Int × β)} {id : Int} {v : β}
    (x : β) (h : alookup m id = some v) : alookup (bumpAdd m id x) id = some (v + x) := by
  induction m with
  | nil => simp [alookup] at h
  | cons p rest ih =>
    obtain ⟨i, w⟩ := p
    by_cases hi : i = id
    · subst hi
      simp [alookup] at h
      subst h
      simp [bumpAdd, alookup]
    · simp [alookup, hi] at h
      simp [bumpAdd, hi, alookup]
      exact ih h

theorem bumpAdd_lookup_other {β : Type} [Add β] {m : List (Int × β)} {id j : Int} (x : β)
    (h : j ≠ id) : alookup (bumpAdd m id x) j = alookup m j := by
  induction m with
  | nil =>
    have hid : ¬ (id = j) := fun hij => h hij.symm
    simp [bumpAdd, alookup, hid]
  | cons p rest ih =>
    obtain ⟨i, v⟩ := p
    by_cases hi : i = id
    · subst hi
      have hij : ¬ (i = j) := fun hij => h hij.symm
      simp [bumpAdd, alookup, hij]
    · simp [bumpAdd, hi, alookup, ih]

theorem bumpAdd_keys {β : Type} [Add β] (m : List (Int × β)) (id : Int) (x : β) :
    (bumpAdd m id x).map Prod.fst =
      if id ∈ m.map Prod.fst then m.map Prod.fst else m.map Prod.fst ++ [id] := by
  induction m with
  | nil => simp [bumpAdd]
  | cons p rest ih =>
    obtain ⟨i, v⟩ := p
    by_cases hi : i = id
    · subst hi
      simp [bumpAdd]
    · have hid : ¬ (id = i) := fun h => hi h.symm
      by_cases hm : id ∈ rest.map Prod.fst
      · simp [bumpAdd, hi, ih, hm, hid]
      · simp [bumpAdd, hi, ih, hm, hid]

theorem bumpAdd_mem_fst {β : Type} [Add β] {m : List (Int × β)} {id : Int} {x : β}
    {p : Int × β} (h : p ∈ bumpAdd m id x) : p.1 = id ∨ ∃ p' ∈ m, p'.1 = p.1 := by
  induction m with
  | nil =>
    simp [bumpAdd] at h
    subst h
    exact Or.inl rfl
  | cons q rest ih =>
    obtain ⟨i, v⟩ := q
    by_cases hi : i = id
    · subst hi
      simp [bumpAdd] at h
      rcases h with h | h
      · subst h
        exact Or.inl rfl
      · exact Or.inr ⟨p, List.mem_cons_of_mem _ h, rfl⟩
    · simp [bumpAdd, hi] at h
      rcases h with h | h
      · subst h
        exact Or.inr ⟨(i, v), List.mem_cons_self _ _, rfl⟩
      · rcases ih h with h' | ⟨p', hp', he⟩
        · exact Or.inl h'
        · exact Or.inr ⟨p', List.mem_cons_of_mem _ hp', he⟩

theorem splitAux_all_space {cs : List Char} (word : Word) (h : ∀ c ∈ cs, c = ' ') :
    splitAux cs word = if word = [] then [] else [word] := by
  induction cs generalizing word with
  | nil => rfl
  | cons c cs ih =>
    have hc : c = ' ' := h c (List.mem_cons_self _ _)
    have hrest : ∀ c' ∈ cs, c' = ' ' := fun c' hc' => h c' (List.mem_cons_of_mem _ hc')
    by_cases hw : word = []
    · simp [splitAux, hc, hw, ih [] hrest]
    · simp [splitAux, hc, hw, ih [] hrest]

theorem splitAux_acc_chars {cs : List Char} {word : Word} {c : Char} (h : c ∈ word) :
    ∃ w ∈ splitAux cs word, c ∈ w := by
  induction cs generalizing word with
  | nil =>
    have hw : ¬ (word = []) := fun he => by simp [he] at h
    exact ⟨word, by simp [splitAux, hw], h⟩
  | cons d cs ih =>
    by_cases hd : d = ' '
    · have hw : ¬ (word = []) := fun he => by simp [he] at h
      exact ⟨word, by simp [splitAux, hd, hw], h⟩
    · have h' : c ∈ word ++ [d] := List.mem_append_left _ h
      obtain ⟨w, hw, hcw⟩ := ih h'
      exact ⟨w, by simpa [splitAux, hd] using hw, hcw⟩

theorem splitAux_chars {cs : List Char} {c : Char} (word : Word)
    (hmem : c ∈ cs) (hns : c ≠ ' ') : ∃ w ∈ splitAux cs word, c ∈ w := by
  induction cs generalizing word with
  | nil => simp at hmem
  | cons d cs ih =>
    by_cases hd : d = ' '
    · have hcd : c ∈ cs := by
        rcases List.mem_cons.mp hmem with h | h
        · exact absurd (h.trans hd) hns
        · exact h
      obtain ⟨w, hw, hcw⟩ := ih [] hcd
      refine ⟨w, ?_, hcw⟩
      by_cases hword : word = [] <;> simp [splitAux, hd, hword, hw]
    · rcases List.mem_cons.mp hmem with h | h
      · subst h
        obtain ⟨w, hw, hcw⟩ := @splitAux_acc_chars cs (word ++ [c]) c
          (List.mem_append_right _ (List.mem_singleton_self c))
        exact ⟨w, by simpa [splitAux, hd] using hw, hcw⟩
      · obtain ⟨w, hw, hcw⟩ := ih (word ++ [d]) h
        exact ⟨w, by simpa [splitAux, hd] using hw, hcw⟩

theorem isValidWord_iff (w : Word) : IsValidWord w = true ↔ ∀ c ∈ w, ¬ c.toNat < 32 := by
  simp [IsValidWord, List.any_eq_true]

theorem isValidWord_of_chars {text : List Char}
    (h : ∀ w ∈ SplitIntoWords text, IsValidWord w = true) : IsValidWord text = true := by
  rw [isValidWord_iff]
  intro c hc hlt
  by_cases hsp : c = ' '
  · subst hsp
    simp at hlt
  · obtain ⟨w, hw, hcw⟩ := splitAux_chars [] hc hsp
    exact ((isValidWord_iff w).mp (h w hw)) c hcw hlt

theorem foldl_add_eq_sum (l : List Int) (a : Int) :
    l.foldl (fun acc r => acc + r) a = a + l.sum := by
  induction l generalizing a with
  | nil => simp
  | cons x xs ih => simp [ih, add_assoc]

theorem noStopLoop_all_stop {s : Server} {ws : List Word}
    (h : ∀ w ∈ ws, IsValidWord w = true ∧ IsStopWord s w = true) :
    noStopLoop s ws = .ok [] := by
  induction ws with
  | nil => rfl
  | cons w ws ih =>
    obtain ⟨hv, hs⟩ := h w (List.mem_cons_self _ _)
    simp [noStopLoop, hv, hs, ih (fun w' hw' => h w' (List.mem_cons_of_mem _ hw'))]

theorem parseQueryWord_ok_data_ne {s : Server} {w : Word} {qw : QueryWord}
    (h : ParseQueryWord s w = .ok qw) : qw.data ≠ [] := by
  unfold ParseQueryWord at h
  by_cases hc : stripMinusOne w = [] ∨ (stripMinusOne w).head? = some '-' ∨
      IsValidWord (stripMinusOne w) = false
  · simp [hc] at h
  · simp [hc] at h
    subst h
    simp
    intro he
    exact hc (Or.inl he)

theorem parseQueryWord_ok_valid {s : Server} {w : Word} {qw : QueryWord}
    (h : ParseQueryWord s w = .ok qw) : IsValidWord w = true := by
  unfold ParseQueryWord at h
  by_cases hc : stripMinusOne w = [] ∨ (stripMinusOne w).head? = some '-' ∨
      IsValidWord (stripMinusOne w) = false
  · simp [hc] at h
  · have hv : IsValidWord (stripMinusOne w) = true := by
      cases hb : IsValidWord (stripMinusOne w) with
      | false => exact absurd (Or.inr (Or.inr hb)) hc
      | true => rfl
    rw [isValidWord_iff]
    intro c hc' hlt
    unfold stripMinusOne at hv
    by_cases hh : w.head? = some '-'
    · rw [if_pos hh] at hv
      cases w with
      | nil => simp at hc'
      | cons d ds =>
        simp at hh
        rcases List.mem_cons.mp hc' with he | he
        · subst hh
          rw [he] at hlt
          simp at hlt
        · exact ((isValidWord_iff ds).mp (by simpa using hv)) c he hlt
    · rw [if_neg hh] at hv
      exact ((isValidWord_iff w).mp hv) c hc' hlt

theorem parseQueryLoop_all_stop {s : Server} {ws : List Word} (q : Query)
    (h : ∀ w ∈ ws, ∃ qw, ParseQueryWord s w = .ok qw ∧ qw.is_stop = true) :
    ∃ stop', parseQueryLoop s ws q = .ok ⟨q.plus_words, q.minus_words, stop'⟩ ∧
      (q.stop_words ≠ [] ∨ ws ≠ [] → stop' ≠ []) := by
  induction ws generalizing q with
  | nil =>
    refine ⟨q.stop_words, by simp [parseQueryLoop], ?_⟩
    rintro (h' | h')
    · exact h'
    · simp at h'
  | cons w ws ih =>
    obtain ⟨qw, hok, hstop⟩ := h w (List.mem_cons_self _ _)
    have hdata : ¬ (qw.data = []) := parseQueryWord_ok_data_ne hok
    have hstop' : ¬ (qw.is_stop = false) := by simp [hstop]
    obtain ⟨stop', heq, hne⟩ :=
      ih { q with stop_words := insertUnique q.stop_words w }
        (fun w' hw' => h w' (List.mem_cons_of_mem _ hw'))
    refine ⟨stop', ?_, fun _ => hne (Or.inl (insertUnique_ne_nil _ _))⟩
    simp only [parseQueryLoop, hok, hdata, hstop']
    simpa using heq

theorem addDocument_ok {s : Server} {document_id : Int} {document : List Char}
    {status : DocumentStatus} {ratings : List Int} {s' : Server}
    (h : AddDocument s document_id document status ratings = (s', none)) :
    alookup s.documents_ document_id = none ∧ ¬ document_id < 0 ∧
      ∃ words, SplitIntoWordsNoStop s document = .ok words ∧
        s' = { stop_words_ := s.stop_words_,
               word_to_document_freqs_ :=
                 addAllWords document_id (1 / (words.length : ℚ)) words
                   s.word_to_document_freqs_,
               documents_ := s.documents_ ++
                 [(document_id, ⟨ComputeAverageRating ratings, status⟩)],
               ids_ := s.ids_ ++ [document_id] } := by
  unfold AddDocument at h
  by_cases h1 : (alookup s.documents_ document_id).isSome
  · simp [h1] at h
  · by_cases h2 : document_id < 0
    · simp [h1, h2] at h
    · cases hsp : SplitIntoWordsNoStop s document with
      | error e => simp [h1, h2, hsp] at h
      | ok words =>
        simp only [h1, h2, hsp, if_neg, if_false, Bool.false_eq_true] at h
        refine ⟨Option.not_isSome_iff_eq_none.mp h1, h2, words, rfl, ?_⟩
        have := congrArg Prod.fst h
        simpa using this.symm

theorem matchDocument_spaces {s : Server} {raw_query : List Char} {document_id : Int}
    {dd : DocumentData} (hsp : ∀ c ∈ raw_query, c = ' ')
    (hid : alookup s.documents_ document_id = some dd) :
    MatchDocument s raw_query document_id = .ok ([], dd.status) := by
  have hsplit : SplitIntoWords raw_query = [] := by
    unfold SplitIntoWords
    rw [splitAux_all_space [] hsp]
    simp
  have hq : ParseQuery s raw_query = .ok ⟨[], [], []⟩ := by
    unfold ParseQuery
    rw [hsplit]
    rfl
  unfold MatchDocument
  rw [hid]
  simp [hq, docDataOf, hid]

theorem addWordFreq_fst {ix : Index} {w : Word} {id : Int} {inv : ℚ}
    {e : Word × List (Int × ℚ)} (he : e ∈ addWordFreq ix w id inv)
    {p : Int × ℚ} (hp : p ∈ e.2) :
    p.1 = id ∨ ∃ e' ∈ ix, ∃ p' ∈ e'.2, p'.1 = p.1 := by
  induction ix with
  | nil =>
    simp [addWordFreq] at he
    subst he
    simp at hp
    subst hp
    exact Or.inl rfl
  | cons q rest ih =>
    obtain ⟨w0, ps⟩ := q
    by_cases hw : w0 = w
    · rw [addWordFreq, if_pos hw] at he
      rcases List.mem_cons.mp he with he | he
      · subst he
        rcases bumpAdd_mem_fst hp with h | ⟨p', hp', he'⟩
        · exact Or.inl h
        · exact Or.inr ⟨(w0, ps), List.mem_cons_self _ _, p', hp', he'⟩
      · exact Or.inr ⟨e, List.mem_cons_of_mem _ he, p, hp, rfl⟩
    · rw [addWordFreq, if_neg hw] at he
      rcases List.mem_cons.mp he with he | he
      · subst he
        exact Or.inr ⟨(w0, ps), List.mem_cons_self _ _, p, hp, rfl⟩
      · rcases ih he with h | ⟨e', he', p', hp', hfst⟩
        · exact Or.inl h
        · exact Or.inr ⟨e', List.mem_cons_of_mem _ he', p', hp', hfst⟩

theorem addAllWords_fst {words : List Word} {ix : Index} {id : Int} {inv : ℚ}
    {e : Word × List (Int × ℚ)} (he : e ∈ addAllWords id inv words ix)
    {p : Int × ℚ} (hp : p ∈ e.2) :
    p.1 = id ∨ ∃ e' ∈ ix, ∃ p' ∈ e'.2, p'.1 = p.1 := by
  induction words generalizing ix with
  | nil => exact Or.inr ⟨e, he, p, hp, rfl⟩
  | cons w ws ih =>
    rcases ih (by simpa [addAllWords] using he) with h | ⟨e', he', p', hp', hfst⟩
    · exact Or.inl h
    · rcases addWordFreq_fst he' hp' with h | ⟨e'', he'', p'', hp'', hfst'⟩
      · exact Or.inl (hfst ▸ h)
      · exact Or.inr ⟨e'', he'', p'', hp'', hfst'.trans hfst⟩

/-! ### Claims -/

/-- C5: every failing `AddDocument` call (duplicate id, negative id, or an
invalid token in the text) leaves the server state exactly as it was
before the call: no posting, document record or insertion-order entry is
created, not even partially. -/
theorem claim_C5 (s : Server) (document_id : Int) (document : List Char)
    (status : DocumentStatus) (ratings : List Int) (e : String)
    (h : (AddDocument s document_id document status ratings).2 = some e) :
    (AddDocument s document_id document status ratings).1 = s := by
  unfold AddDocument at h ⊢
  by_cases h1 : (alookup s.documents_ document_id).isSome
  · simp [h1]
  · by_cases h2 : document_id < 0
    · simp [h1, h2]
    · cases hsp : SplitIntoWordsNoStop s document with
      | error e' => simp [h1, h2, hsp]
      | ok words => simp [h1, h2, hsp] at h

/-- Witness for C5 at a concrete failing call (negative id on an empty
server): the state is unchanged. -/
theorem claim_C5_witness :
    (AddDocument ⟨[], [], [], []⟩ (-1) [] DocumentStatus.ACTUAL []).2 =
      some "Document ID is negative" ∧
    (AddDocument ⟨[], [], [], []⟩ (-1) [] DocumentStatus.ACTUAL []).1 =
      ⟨[], [], [], []⟩ :=
  ⟨rfl, claim_C5 _ _ _ _ _ _ rfl⟩

/-- C7: the stored rating is the truncated integer mean of the ratings
(0 for an empty sequence); `{12,1,5} ↦ 6`, `{-2,5,3} ↦ 2`, `{1} ↦ 1`;
`AddDocument` stores exactly this value in the document map. -/
theorem claim_C7 :
    (∀ ratings : List Int, ComputeAverageRating ratings =
        if ratings = [] then 0 else Int.tdiv ratings.sum (ratings.length : Int)) ∧
      ComputeAverageRating [12, 1, 5] = 6 ∧
      ComputeAverageRating [-2, 5, 3] = 2 ∧
      ComputeAverageRating [1] = 1 ∧
      ∀ (s : Server) (document_id : Int) (document : List Char)
        (status : DocumentStatus) (ratings : List Int) (s' : Server),
        AddDocument s document_id document status ratings = (s', none) →
        alookup s'.documents_ document_id =
          some ⟨ComputeAverageRating ratings, status⟩ := by
  refine ⟨?_, by decide, by decide, by decide, ?_⟩
  · intro ratings
    unfold ComputeAverageRating
    by_cases h : ratings = []
    · simp [h]
    · simp [h, foldl_add_eq_sum]
  · intro s document_id document status ratings s' h
    obtain ⟨hfresh, _, words, _, hs'⟩ := addDocument_ok h
    subst hs'
    simp only [alookup_append, hfresh]
    simp [alookup]

/-- Witness for C7's storage clause at a concrete successful call. -/
theorem claim_C7_witness :
    ComputeAverageRating [12, 1, 5] = 6 ∧
    alookup (AddDocument ⟨[], [], [], []⟩ 7 [] DocumentStatus.BANNED [12, 1, 5]).1.documents_ 7 =
      some ⟨ComputeAverageRating [12, 1, 5], DocumentStatus.BANNED⟩ :=
  ⟨claim_C7.2.1,
    claim_C7.2.2.2.2 ⟨[], [], [], []⟩ 7 [] DocumentStatus.BANNED [12, 1, 5]
      (AddDocument ⟨[], [], [], []⟩ 7 [] DocumentStatus.BANNED [12, 1, 5]).1 rfl⟩

/-- C10: `MatchDocument` on a raw query that is empty or all spaces, with
an indexed id, succeeds and returns an empty matched-term sequence paired
with that document's stored status — no empty-query rejection happens. -/
theorem claim_C10 (s : Server) (raw_query : List Char) (document_id : Int)
    (dd : DocumentData) (hsp : ∀ c ∈ raw_query, c = ' ')
    (hid : alookup s.documents_ document_id = some dd) :
    MatchDocument s raw_query document_id = .ok ([], dd.status) :=
  matchDocument_spaces hsp hid

/-- Witness for C10 at a concrete server, an all-space query and an
indexed id. -/
theorem claim_C10_witness :
    MatchDocument ⟨[], [], [(3, ⟨2, DocumentStatus.BANNED⟩)], [3]⟩ [' ', ' '] 3 =
      .ok ([], DocumentStatus.BANNED) :=
  claim_C10 _ _ _ ⟨2, DocumentStatus.BANNED⟩ (by decide) rfl

/-- C6: `AddDocument` with a fresh non-negative id and a text all of
whose tokens are stop words succeeds, records the document (visible
through `GetDocumentCount`, `GetDocumentId`, the document map and
`MatchDocument`) and creates no posting. -/
theorem claim_C6 (s : Server) (document_id : Int) (document : List Char)
    (status : DocumentStatus) (ratings : List Int)
    (hfresh : alookup s.documents_ document_id = none)
    (hneg : ¬ document_id < 0)
    (hstop : ∀ w ∈ SplitIntoWords document,
      IsValidWord w = true ∧ IsStopWord s w = true)
    (hlen : s.ids_.length = s.documents_.length) :
    ∃ s', AddDocument s document_id document status ratings = (s', none) ∧
      s'.word_to_document_freqs_ = s.word_to_document_freqs_ ∧
      GetDocumentCount s' = GetDocumentCount s + 1 ∧
      GetDocumentId s' (GetDocumentCount s : Int) = .ok document_id ∧
      alookup s'.documents_ document_id =
        some ⟨ComputeAverageRating ratings, status⟩ ∧
      MatchDocument s' [] document_id = .ok ([], status) := by
  have hsplit : SplitIntoWordsNoStop s document = .ok [] :=
    noStopLoop_all_stop hstop
  have hns : ¬ (alookup s.documents_ document_id).isSome = true := by
    simp [hfresh]
  refine ⟨{ stop_words_ := s.stop_words_,
            word_to_document_freqs_ := s.word_to_document_freqs_,
            documents_ := s.documents_ ++
              [(document_id, ⟨ComputeAverageRating ratings, status⟩)],
            ids_ := s.ids_ ++ [document_id] }, ?_, rfl, ?_, ?_, ?_, ?_⟩
  · unfold AddDocument
    rw [if_neg hns, if_neg hneg, hsplit]
    rfl
  · simp [GetDocumentCount]
  · unfold GetDocumentId GetDocumentCount
    rw [if_pos ?_]
    · simp only [Int.toNat_natCast]
      rw [hlen.symm, List.getD_eq_getElem?_getD, List.getElem?_append_right le_rfl]
      simp
    · constructor
      · exact Int.natCast_nonneg _
      · simp [GetDocumentCount]
  · simp only [alookup_append, hfresh]
    simp [alookup]
  · have hlook : alookup (s.documents_ ++
        [(document_id, (⟨ComputeAverageRating ratings, status⟩ : DocumentData))])
          document_id = some ⟨ComputeAverageRating ratings, status⟩ := by
      simp only [alookup_append, hfresh]
      simp [alookup]
    exact @matchDocument_spaces
      ⟨s.stop_words_, s.word_to_document_freqs_,
        s.documents_ ++ [(document_id, ⟨ComputeAverageRating ratings, status⟩)],
        s.ids_ ++ [document_id]⟩
      [] document_id ⟨ComputeAverageRating ratings, status⟩
      (fun c hc => absurd hc (List.not_mem_nil c)) hlook

/-- Witness for C6: a server whose stop words are `{"a"}`, ingesting a
document whose text is exactly "a". -/
theorem claim_C6_witness :
    ∃ s', AddDocument ⟨[['a']], [], [], []⟩ 4 ['a'] DocumentStatus.ACTUAL [9] =
        (s', none) ∧
      s'.word_to_document_freqs_ = [] ∧
      GetDocumentCount s' = 1 ∧
      GetDocumentId s' 0 = .ok 4 ∧
      alookup s'.documents_ 4 = some ⟨ComputeAverageRating [9], DocumentStatus.ACTUAL⟩ ∧
      MatchDocument s' [] 4 = .ok ([], DocumentStatus.ACTUAL) :=
  claim_C6 ⟨[['a']], [], [], []⟩ 4 ['a'] DocumentStatus.ACTUAL [9]
    rfl (by decide) (by decide) rfl

/-- C4: a query with at least one token, all of whose tokens resolve to
stop words (zero required and zero forbidden terms), makes
`FindTopDocuments` return an empty sequence and `MatchDocument` (on an
indexed id) return an empty matched-term sequence paired with the default
status `ACTUAL`, both as successful results rather than errors. -/
theorem claim_C4 (s : Server) (raw_query : List Char) (pred : DocumentPredicate)
    (document_id : Int) (dd : DocumentData)
    (hne : SplitIntoWords raw_query ≠ [])
    (hstop : ∀ w ∈ SplitIntoWords raw_query,
      ∃ qw, ParseQueryWord s w = .ok qw ∧ qw.is_stop = true)
    (hid : alookup s.documents_ document_id = some dd) :
    FindTopDocuments s raw_query pred = .ok [] ∧
      MatchDocument s raw_query document_id = .ok ([], DocumentStatus.ACTUAL) := by
  obtain ⟨stop', hloop, hsne⟩ := parseQueryLoop_all_stop (⟨[], [], []⟩ : Query) hstop
  have hq : ParseQuery s raw_query = .ok ⟨[], [], stop'⟩ := hloop
  have hstopne : stop' ≠ [] := hsne (Or.inr hne)
  have hvalid : IsValidWord raw_query = true := by
    apply isValidWord_of_chars
    intro w hw
    obtain ⟨qw, hok, _⟩ := hstop w hw
    exact parseQueryWord_ok_valid hok
  have hrne : ¬ (raw_query = []) := by
    intro h0
    subst h0
    exact hne rfl
  constructor
  · unfold FindTopDocuments
    rw [if_neg (by simp [hvalid]), if_neg hrne, hq]
    simp [hstopne]
  · unfold MatchDocument
    rw [hid, hq]
    simp [hstopne]

/-- Witness for C4: a server with stop word "s" and one indexed
document; the query is the single token "s". -/
theorem claim_C4_witness :
    FindTopDocuments ⟨[['s']], [], [(0, ⟨0, DocumentStatus.ACTUAL⟩)], [0]⟩ ['s']
        (fun _ _ _ => true) = .ok [] ∧
      MatchDocument ⟨[['s']], [], [(0, ⟨0, DocumentStatus.ACTUAL⟩)], [0]⟩ ['s'] 0 =
        .ok ([], DocumentStatus.ACTUAL) :=
  claim_C4 ⟨[['s']], [], [(0, ⟨0, DocumentStatus.ACTUAL⟩)], [0]⟩ ['s']
    (fun _ _ _ => true) 0 ⟨0, DocumentStatus.ACTUAL⟩
    (by decide)
    (fun w hw => by
      have hws : w = ['s'] := by simpa [SplitIntoWords, splitAux] using hw
      subst hws
      exact ⟨⟨['s'], false, true⟩, rfl, rfl⟩)
    rfl

theorem isValidWord_eq_false_iff (t : Word) :
    IsValidWord t = false ↔ ∃ c ∈ t, c.toNat < 32 := by
  simp [IsValidWord]

/-- C8: query parsing strips at most one leading `'-'` per token and
fails exactly when the stripped text is empty, still starts with `'-'`,
or contains an ASCII control character in `0x00`–`0x1F`; a surviving
term is classified into exactly one of the required, forbidden or
stop-word sets (the stop-word set receiving the original token). -/
theorem claim_C8 (s : Server) (w : Word) :
    ((∃ e, ParseQueryWord s w = .error e) ↔
      (stripMinusOne w = [] ∨ (stripMinusOne w).head? = some '-' ∨
        ∃ c ∈ stripMinusOne w, c.toNat < 32)) ∧
    (∀ qw, ParseQueryWord s w = .ok qw →
      qw.data = stripMinusOne w ∧
      qw.is_minus = decide (w.head? = some '-') ∧
      qw.is_stop = IsStopWord s (stripMinusOne w)) ∧
    (∀ qw q q', ParseQueryWord s w = .ok qw → parseQueryLoop s [w] q = .ok q' →
      (qw.is_stop = true →
        q' = { q with stop_words := insertUnique q.stop_words w }) ∧
      (qw.is_stop = false → qw.is_minus = true →
        q' = { q with minus_words := insertUnique q.minus_words qw.data }) ∧
      (qw.is_stop = false → qw.is_minus = false →
        q' = { q with plus_words := insertUnique q.plus_words qw.data })) := by
  refine ⟨?_, ?_, ?_⟩
  · by_cases hc : stripMinusOne w = [] ∨ (stripMinusOne w).head? = some '-' ∨
        IsValidWord (stripMinusOne w) = false
    · constructor
      · intro _
        rcases hc with h | h | h
        · exact Or.inl h
        · exact Or.inr (Or.inl h)
        · exact Or.inr (Or.inr ((isValidWord_eq_false_iff _).mp h))
      · intro _
        exact ⟨"Invalid word try to request", by unfold ParseQueryWord; rw [if_pos hc]⟩
    · constructor
      · intro ⟨e, he⟩
        unfold ParseQueryWord at he
        rw [if_neg hc] at he
        exact absurd he (by simp)
      · intro h
        rcases h with h | h | h
        · exact absurd (Or.inl h) hc
        · exact absurd (Or.inr (Or.inl h)) hc
        · exact absurd (Or.inr (Or.inr ((isValidWord_eq_false_iff _).mpr h))) hc
  · intro qw h
    unfold ParseQueryWord at h
    by_cases hc : stripMinusOne w = [] ∨ (stripMinusOne w).head? = some '-' ∨
        IsValidWord (stripMinusOne w) = false
    · rw [if_pos hc] at h
      exact absurd h (by simp)
    · rw [if_neg hc] at h
      have h' : qw = ⟨stripMinusOne w, decide (w.head? = some '-'),
          IsStopWord s (stripMinusOne w)⟩ := by
        cases h
        rfl
      subst h'
      exact ⟨rfl, rfl, rfl⟩
  · intro qw q q' hok hloop
    have hdata : ¬ (qw.data = []) := parseQueryWord_ok_data_ne hok
    cases hst : qw.is_stop with
    | true =>
      simp only [parseQueryLoop, hok, hst, if_neg hdata] at hloop
      simp at hloop
      refine ⟨fun _ => hloop.symm, ?_, ?_⟩
      · intro h0
        simp at h0
      · intro h0
        simp at h0
    | false =>
      cases hmin : qw.is_minus with
      | true =>
        simp only [parseQueryLoop, hok, hst, hmin, if_neg hdata] at hloop
        simp at hloop
        refine ⟨?_, fun _ _ => hloop.symm, ?_⟩
        · intro h0
          simp at h0
        · intro _ h0
          simp at h0
      | false =>
        simp only [parseQueryLoop, hok, hst, hmin, if_neg hdata] at hloop
        simp at hloop
        refine ⟨?_, ?_, fun _ _ => hloop.symm⟩
        · intro h0
          simp at h0
        · intro _ h0
          simp at h0

/-- Witness for C8: the token "-a" parses as a forbidden term and is
inserted into the minus set; the bare token "-" is rejected. -/
theorem claim_C8_witness :
    ((⟨['a'], true, false⟩ : QueryWord).data = stripMinusOne ['-', 'a'] ∧
      (⟨['a'], true, false⟩ : QueryWord).is_minus =
        decide ((['-', 'a'] : Word).head? = some '-') ∧
      (⟨['a'], true, false⟩ : QueryWord).is_stop =
        IsStopWord ⟨[], [], [], []⟩ (stripMinusOne ['-', 'a'])) ∧
    ((⟨[], [['a']], []⟩ : Query) =
      { (⟨[], [], []⟩ : Query) with minus_words := insertUnique [] ['a'] }) ∧
    (∃ e, ParseQueryWord ⟨[], [], [], []⟩ ['-'] = .error e) :=
  ⟨(claim_C8 ⟨[], [], [], []⟩ ['-', 'a']).2.1 ⟨['a'], true, false⟩ rfl,
    ((claim_C8 ⟨[], [], [], []⟩ ['-', 'a']).2.2 ⟨['a'], true, false⟩
      ⟨[], [], []⟩ ⟨[], [['a']], []⟩ rfl rfl).2.1 rfl rfl,
    (claim_C8 ⟨[], [], [], []⟩ ['-']).1.mpr (Or.inl rfl)⟩

/-- C9: in every server state reachable by successful `AddDocument` calls
from a freshly constructed server, the insertion-order sequence holds
exactly the ids of the document map, each exactly once, and every
document id occurring in any posting of the inverted index is present in
the document map. -/
theorem claim_C9 (s : Server) (h : Reachable s) :
    s.ids_.Nodup ∧
      (∀ a, a ∈ s.ids_ ↔ (alookup s.documents_ a).isSome = true) ∧
      ∀ e ∈ s.word_to_document_freqs_, ∀ p ∈ e.2,
        (alookup s.documents_ p.1).isSome = true := by
  induction h with
  | init stop_words s hmk =>
    unfold mkSearchServer at hmk
    by_cases hv : stop_words.all IsValidWord
    · rw [if_pos hv] at hmk
      cases hmk
      refine ⟨List.nodup_nil, ?_, ?_⟩
      · intro a
        simp [alookup]
      · intro e he
        simp at he
    · rw [if_neg hv] at hmk
      exact absurd hmk (by simp)
  | step s document_id document status ratings s' _ heq ih =>
    obtain ⟨hfresh, _, words, _, hs'⟩ := addDocument_ok heq
    subst hs'
    have hnotin : document_id ∉ s.ids_ := by
      intro hmem
      have hsm := (ih.2.1 document_id).mp hmem
      rw [hfresh] at hsm
      simp at hsm
    refine ⟨?_, ?_, ?_⟩
    · rw [List.nodup_append]
      refine ⟨ih.1, List.nodup_singleton _, ?_⟩
      intro a ha hb
      rw [List.mem_singleton] at hb
      subst hb
      exact hnotin ha
    · intro a
      constructor
      · intro hmem
        rw [alookup_append]
        rcases List.mem_append.mp hmem with hmem | hmem
        · have hsm := (ih.2.1 a).mp hmem
          rcases Option.isSome_iff_exists.mp hsm with ⟨v, hv⟩
          rw [hv]
          rfl
        · rw [List.mem_singleton] at hmem
          subst hmem
          rw [hfresh]
          simp [alookup]
      · intro hsome
        rw [alookup_append] at hsome
        cases hl : alookup s.documents_ a with
        | some v =>
          exact List.mem_append_left _ ((ih.2.1 a).mpr (by rw [hl]; rfl))
        | none =>
          rw [hl] at hsome
          by_cases hia : document_id = a
          · subst hia
            exact List.mem_append_right _ (List.mem_singleton_self _)
          · simp [alookup, hia] at hsome
    · intro e he p hp
      rcases addAllWords_fst he hp with h1 | ⟨e', he', p', hp', hfst⟩
      · rw [h1, alookup_append, hfresh]
        simp [alookup]
      · have hsm := ih.2.2 e' he' p' hp'
        rw [← hfst, alookup_append]
        rcases Option.isSome_iff_exists.mp hsm with ⟨v, hv⟩
        rw [hv]
        rfl

/-- Witness for C9 at the freshly constructed empty server. -/
theorem claim_C9_witness :
    (⟨[], [], [], []⟩ : Server).ids_.Nodup ∧
      (∀ a, a ∈ (⟨[], [], [], []⟩ : Server).ids_ ↔
        (alookup (⟨[], [], [], []⟩ : Server).documents_ a).isSome = true) ∧
      ∀ e ∈ (⟨[], [], [], []⟩ : Server).word_to_document_freqs_, ∀ p ∈ e.2,
        (alookup (⟨[], [], [], []⟩ : Server).documents_ p.1).isSome = true :=
  claim_C9 ⟨[], [], [], []⟩ (Reachable.init [] ⟨[], [], [], []⟩ rfl)

theorem mem_sortInsert (x y : Document) (l : List Document) :
    y ∈ sortInsert x l ↔ y = x ∨ y ∈ l := by
  induction l with
  | nil => simp [sortInsert]
  | cons z zs ih =>
    unfold sortInsert
    by_cases h : docLt x z
    · rw [if_pos h]
      simp
    · rw [if_neg h]
      simp only [List.mem_cons, ih]
      tauto

theorem mem_sortDocs (y : Document) (l : List Document) :
    y ∈ sortDocs l ↔ y ∈ l := by
  induction l with
  | nil => simp [sortDocs]
  | cons x xs ih =>
    unfold sortDocs
    rw [mem_sortInsert, ih]
    simp

theorem mem_eraseId {β : Type} {m : List (Int × β)} {id : Int} {p : Int × β} :
    p ∈ eraseId m id ↔ p ∈ m ∧ p.1 ≠ id := by
  simp [eraseId, List.mem_filter]

theorem mem_eraseFold {β : Type} {ps : List (Int × ℚ)} {m : List (Int × β)} {p : Int × β}
    (h : p ∈ ps.foldl (fun acc q => eraseId acc q.1) m) :
    p ∈ m ∧ p.1 ∉ ps.map Prod.fst := by
  induction ps generalizing m with
  | nil =>
    exact ⟨h, by simp⟩
  | cons q qs ih =>
    rw [List.foldl_cons] at h
    obtain ⟨hm, hrest⟩ := ih h
    obtain ⟨hm', hne⟩ := mem_eraseId.mp hm
    refine ⟨hm', ?_⟩
    simp only [List.map_cons, List.mem_cons]
    rintro (h1 | h1)
    · exact hne h1
    · exact hrest h1

theorem mem_processMinusWords {β : Type} {s : Server} {ws : List Word}
    {m : List (Int × β)} {p : Int × β} (h : p ∈ processMinusWords s ws m) :
    p ∈ m ∧ ∀ w ∈ ws, ∀ ps, alookup s.word_to_document_freqs_ w = some ps →
      p.1 ∉ ps.map Prod.fst := by
  induction ws generalizing m with
  | nil =>
    refine ⟨h, ?_⟩
    intro w hw
    simp at hw
  | cons w ws ih =>
    unfold processMinusWords at h
    cases hl : alookup s.word_to_document_freqs_ w with
    | none =>
      rw [hl] at h
      obtain ⟨hm, hrest⟩ := ih h
      refine ⟨hm, ?_⟩
      intro w' hw' ps' hps'
      rcases List.mem_cons.mp hw' with h1 | h1
      · subst h1
        rw [hl] at hps'
        exact absurd hps' (by simp)
      · exact hrest w' h1 ps' hps'
    | some ps =>
      rw [hl] at h
      obtain ⟨hm, hrest⟩ := ih h
      obtain ⟨hm', hnotin⟩ := mem_eraseFold hm
      refine ⟨hm', ?_⟩
      intro w' hw' ps' hps'
      rcases List.mem_cons.mp hw' with h1 | h1
      · subst h1
        rw [hl] at hps'
        cases hps'
        exact hnotin
      · exact hrest w' h1 ps' hps'

theorem eraseFold_nil {β : Type} (ps : List (Int × ℚ)) :
    ps.foldl (fun acc q => eraseId acc q.1) ([] : List (Int × β)) = [] := by
  induction ps with
  | nil => rfl
  | cons q qs ihq => simpa [eraseId] using ihq

theorem processMinusWords_nil {β : Type} (s : Server) (ws : List Word) :
    processMinusWords s ws ([] : List (Int × β)) = [] := by
  induction ws with
  | nil => rfl
  | cons w ws ih =>
    unfold processMinusWords
    cases hl : alookup s.word_to_document_freqs_ w with
    | none => exact ih
    | some ps =>
      show processMinusWords s ws (ps.foldl (fun acc p => eraseId acc p.1) []) = []
      rw [eraseFold_nil]
      exact ih

theorem findTopDocuments_ok {s : Server} {raw_query : List Char}
    {pred : DocumentPredicate} {res : List Document}
    (h : FindTopDocuments s raw_query pred = .ok res) :
    ∃ q, ParseQuery s raw_query = .ok q ∧
      ((q.plus_words = [] ∧ q.minus_words = [] ∧ q.stop_words ≠ [] ∧ res = []) ∨
        res = (if MAX_RESULT_DOCUMENT_COUNT <
                  (sortDocs (FindAllDocuments s q pred)).length
               then (sortDocs (FindAllDocuments s q pred)).take
                      MAX_RESULT_DOCUMENT_COUNT
               else sortDocs (FindAllDocuments s q pred))) := by
  unfold FindTopDocuments at h
  by_cases h1 : IsValidWord raw_query = false
  · rw [if_pos h1] at h
    exact absurd h (by simp)
  · rw [if_neg h1] at h
    by_cases h2 : raw_query = []
    · rw [if_pos h2] at h
      exact absurd h (by simp)
    · rw [if_neg h2] at h
      cases hq : ParseQuery s raw_query with
      | error e =>
        rw [hq] at h
        exact absurd h (by simp)
      | ok q =>
        rw [hq] at h
        dsimp only at h
        refine ⟨q, rfl, ?_⟩
        by_cases h3 : q.plus_words = [] ∧ q.minus_words = [] ∧ q.stop_words ≠ []
        · rw [if_pos h3] at h
          simp at h
          exact Or.inl ⟨h3.1, h3.2.1, h3.2.2, h⟩
        · rw [if_neg h3] at h
          simp at h
          exact Or.inr h.symm

/-- C3: no document whose postings contain any forbidden term of the
query appears in `FindTopDocuments`' result; moreover with no required
terms (in particular a query of only forbidden terms) the result is
empty. -/
theorem claim_C3 (s : Server) (raw_query : List Char) (pred : DocumentPredicate)
    (res : List Document) (q : Query)
    (hok : FindTopDocuments s raw_query pred = .ok res)
    (hq : ParseQuery s raw_query = .ok q) :
    (∀ w ∈ q.minus_words, ∀ ps, alookup s.word_to_document_freqs_ w = some ps →
      ∀ d ∈ res, (alookup ps d.id).isNone = true) ∧
    (q.plus_words = [] → res = []) := by
  obtain ⟨q', hq', hcase⟩ := findTopDocuments_ok hok
  rw [hq] at hq'
  have hqq : q = q' := by
    simpa using hq'
  subst hqq
  rcases hcase with ⟨_, _, _, hres⟩ | hres
  · subst hres
    constructor
    · intro w _ ps _ d hd
      simp at hd
    · intro _
      rfl
  · have hmem : ∀ d ∈ res, d ∈ FindAllDocuments s q pred := by
      intro d hd
      rw [hres] at hd
      by_cases hlen : MAX_RESULT_DOCUMENT_COUNT <
          (sortDocs (FindAllDocuments s q pred)).length
      · rw [if_pos hlen] at hd
        exact (mem_sortDocs _ _).mp (List.take_subset _ _ hd)
      · rw [if_neg hlen] at hd
        exact (mem_sortDocs _ _).mp hd
    constructor
    · intro w hw ps hps d hd
      have hdm := hmem d hd
      unfold FindAllDocuments at hdm
      obtain ⟨p, hp, hdp⟩ := List.mem_map.mp hdm
      obtain ⟨_, hpm⟩ := mem_processMinusWords hp
      have hnotin := hpm w hw ps hps
      have hid : d.id = p.1 := by rw [← hdp]
      rw [hid]
      cases hal : alookup ps p.1 with
      | none => rfl
      | some tf => exact absurd (mem_keys_of_alookup hal) hnotin
    · intro hplus
      have hfa : FindAllDocuments s q pred = [] := by
        unfold FindAllDocuments
        rw [hplus]
        show (processMinusWords s q.minus_words
          (processPlusWords s pred [] [])).map _ = []
        rw [show processPlusWords s pred [] ([] : List (Int × ℝ)) = [] from rfl,
          processMinusWords_nil]
        rfl
      rw [hres, hfa]
      show (if MAX_RESULT_DOCUMENT_COUNT < (sortDocs []).length then _
            else sortDocs []) = []
      simp [sortDocs, MAX_RESULT_DOCUMENT_COUNT]

/-- Witness for C3: one document containing only "x", queried with
"-x a": the forbidden term "x" hits the document, the result is empty. -/
theorem claim_C3_witness :
    (∀ w ∈ (⟨[['a']], [['x']], []⟩ : Query).minus_words, ∀ ps,
      alookup ([(['x'], [(0, 1)])] : Index) w = some ps →
      ∀ d ∈ ([] : List Document), (alookup ps d.id).isNone = true) ∧
    ((⟨[['a']], [['x']], []⟩ : Query).plus_words = [] → ([] : List Document) = []) :=
  claim_C3 ⟨[], [(['x'], [(0, 1)])], [(0, ⟨0, DocumentStatus.ACTUAL⟩)], [0]⟩
    ['-', 'x', ' ', 'a'] (fun _ _ _ => true) [] ⟨[['a']], [['x']], []⟩
    rfl rfl

theorem docLt_asymm {a b : Document} (h : docLt a b) : ¬ docLt b a := by
  unfold docLt at h ⊢
  by_cases he : |a.relevance - b.relevance| < EPSILON
  · rw [if_pos he] at h
    rw [if_pos (by rwa [abs_sub_comm])]
    exact not_lt_of_gt h
  · rw [if_neg he] at h
    rw [if_neg (by rwa [abs_sub_comm])]
    exact not_lt_of_gt h

theorem chain'_sortInsert {x : Document} {l : List Document}
    (h : l.Chain' (fun a b => ¬ docLt b a)) :
    (sortInsert x l).Chain' (fun a b => ¬ docLt b a) := by
  induction l with
  | nil => simp [sortInsert]
  | cons y ys ih =>
    unfold sortInsert
    by_cases hxy : docLt x y
    · rw [if_pos hxy]
      exact List.chain'_cons.mpr ⟨docLt_asymm hxy, h⟩
    · rw [if_neg hxy]
      have htail := (List.chain'_cons'.mp h).2
      have hhead := (List.chain'_cons'.mp h).1
      refine List.chain'_cons'.mpr ⟨?_, ih htail⟩
      intro z hz
      cases ys with
      | nil =>
        simp [sortInsert] at hz
        subst hz
        exact hxy
      | cons y' ys' =>
        unfold sortInsert at hz
        by_cases hxy' : docLt x y'
        · rw [if_pos hxy'] at hz
          simp at hz
          subst hz
          exact hxy
        · rw [if_neg hxy'] at hz
          simp at hz
          subst hz
          exact hhead y' rfl

theorem chain'_sortDocs (l : List Document) :
    (sortDocs l).Chain' (fun a b => ¬ docLt b a) := by
  induction l with
  | nil => simp [sortDocs]
  | cons x xs ih =>
    unfold sortDocs
    exact chain'_sortInsert ih

theorem not_docLt_iff (a b : Document) :
    (¬ docLt b a) ↔
      ((|a.relevance - b.relevance| < EPSILON → b.rating ≤ a.rating) ∧
        (EPSILON ≤ |a.relevance - b.relevance| → b.relevance ≤ a.relevance)) := by
  unfold docLt
  by_cases he : |b.relevance - a.relevance| < EPSILON
  · rw [if_pos he]
    rw [abs_sub_comm] at he
    constructor
    · intro h
      exact ⟨fun _ => not_lt.mp h, fun h' => absurd he (not_lt.mpr h')⟩
    · intro ⟨h1, _⟩
      exact not_lt.mpr (h1 he)
  · rw [if_neg he]
    rw [abs_sub_comm] at he
    constructor
    · intro h
      exact ⟨fun h' => absurd h' he, fun _ => not_lt.mp h⟩
    · intro ⟨_, h2⟩
      exact not_lt.mpr (h2 (not_lt.mp he))

/-- C2: every successful `FindTopDocuments` result has at most 5 entries
and consecutive entries are ordered descending by relevance, except that
within a relevance difference below `EPSILON = 1e-6` the larger rating
comes first. -/
theorem claim_C2 (s : Server) (raw_query : List Char) (pred : DocumentPredicate)
    (res : List Document) (hok : FindTopDocuments s raw_query pred = .ok res) :
    res.length ≤ 5 ∧
      res.Chain' (fun a b =>
        (|a.relevance - b.relevance| < EPSILON → b.rating ≤ a.rating) ∧
        (EPSILON ≤ |a.relevance - b.relevance| → b.relevance ≤ a.relevance)) := by
  obtain ⟨q, _, hcase⟩ := findTopDocuments_ok hok
  rcases hcase with ⟨_, _, _, hres⟩ | hres
  · subst hres
    exact ⟨by simp, List.chain'_nil⟩
  · have hchain : res.Chain' (fun a b => ¬ docLt b a) := by
      rw [hres]
      by_cases hlen : MAX_RESULT_DOCUMENT_COUNT <
          (sortDocs (FindAllDocuments s q pred)).length
      · rw [if_pos hlen]
        exact (chain'_sortDocs _).take _
      · rw [if_neg hlen]
        exact chain'_sortDocs _
    refine ⟨?_, hchain.imp (fun a b => (not_docLt_iff a b).mp)⟩
    rw [hres]
    by_cases hlen : MAX_RESULT_DOCUMENT_COUNT <
        (sortDocs (FindAllDocuments s q pred)).length
    · rw [if_pos hlen]
      simp [MAX_RESULT_DOCUMENT_COUNT]
    · rw [if_neg hlen]
      exact Nat.le_of_not_lt hlen

/-- Witness for C2 at a concrete server and query: the single result has
at most 5 entries and is trivially ordered. -/
theorem claim_C2_witness :
    (((FindTopDocuments ⟨[], [(['a'], [(0, 1)])], [(0, ⟨3, DocumentStatus.ACTUAL⟩)], [0]⟩
        ['a'] (fun _ _ _ => true)).toOption.getD []).length ≤ 5) ∧
      ((FindTopDocuments ⟨[], [(['a'], [(0, 1)])], [(0, ⟨3, DocumentStatus.ACTUAL⟩)], [0]⟩
        ['a'] (fun _ _ _ => true)).toOption.getD []).Chain' (fun a b =>
        (|a.relevance - b.relevance| < EPSILON → b.rating ≤ a.rating) ∧
        (EPSILON ≤ |a.relevance - b.relevance| → b.relevance ≤ a.relevance)) :=
  claim_C2 ⟨[], [(['a'], [(0, 1)])], [(0, ⟨3, DocumentStatus.ACTUAL⟩)], [0]⟩
    ['a'] (fun _ _ _ => true)
    ((FindTopDocuments ⟨[], [(['a'], [(0, 1)])], [(0, ⟨3, DocumentStatus.ACTUAL⟩)], [0]⟩
        ['a'] (fun _ _ _ => true)).toOption.getD []) rfl

theorem processPostings_nil (s : Server) (pred : DocumentPredicate) (idf : ℝ)
    (m : List (Int × ℝ)) : processPostings s pred idf [] m = m := rfl

theorem processPostings_cons (s : Server) (pred : DocumentPredicate) (idf : ℝ)
    (i : Int) (tf : ℚ) (ps : List (Int × ℚ)) (m : List (Int × ℝ)) :
    processPostings s pred idf ((i, tf) :: ps) m =
      if pred i (docDataOf s i).status (docDataOf s i).rating = true then
        processPostings s pred idf ps (bumpAdd m i ((tf : ℝ) * idf))
      else processPostings s pred idf ps m := rfl

theorem processPlusWords_nil (s : Server) (pred : DocumentPredicate)
    (m : List (Int × ℝ)) : processPlusWords s pred [] m = m := rfl

theorem processPlusWords_cons_none {s : Server} {w : Word}
    (pred : DocumentPredicate) (ws : List Word) (m : List (Int × ℝ))
    (hl : alookup s.word_to_document_freqs_ w = none) :
    processPlusWords s pred (w :: ws) m = processPlusWords s pred ws m := by
  have h0 : processPlusWords s pred (w :: ws) m =
      match alookup s.word_to_document_freqs_ w with
      | none => processPlusWords s pred ws m
      | some ps => processPlusWords s pred ws
          (processPostings s pred (ComputeWordInverseDocumentFreq s w) ps m) := rfl
  rw [h0, hl]

theorem processPlusWords_cons_some {s : Server} {w : Word} {ps : List (Int × ℚ)}
    (pred : DocumentPredicate) (ws : List Word) (m : List (Int × ℝ))
    (hl : alookup s.word_to_document_freqs_ w = some ps) :
    processPlusWords s pred (w :: ws) m =
      processPlusWords s pred ws
        (processPostings s pred (ComputeWordInverseDocumentFreq s w) ps m) := by
  have h0 : processPlusWords s pred (w :: ws) m =
      match alookup s.word_to_document_freqs_ w with
      | none => processPlusWords s pred ws m
      | some ps => processPlusWords s pred ws
          (processPostings s pred (ComputeWordInverseDocumentFreq s w) ps m) := rfl
  rw [h0, hl]

theorem processPostings_lookup {s : Server} {pred : DocumentPredicate} {idf : ℝ}
    {ps : List (Int × ℚ)} {m : List (Int × ℝ)} {j : Int}
    (hnd : (ps.map Prod.fst).Nodup) :
    alookup (processPostings s pred idf ps m) j =
      if pred j (docDataOf s j).status (docDataOf s j).rating = true then
        match alookup ps j with
        | some tf => some ((alookup m j).getD 0 + (tf : ℝ) * idf)
        | none => alookup m j
      else alookup m j := by
  induction ps generalizing m with
  | nil =>
    rw [processPostings_nil]
    by_cases hp : pred j (docDataOf s j).status (docDataOf s j).rating = true
    · rw [if_pos hp]
      rfl
    · rw [if_neg hp]
  | cons p ps ih =>
    obtain ⟨i, tf⟩ := p
    rw [List.map_cons, List.nodup_cons] at hnd
    obtain ⟨hi_notin, hnd'⟩ := hnd
    rw [processPostings_cons]
    by_cases hij : i = j
    · subst hij
      by_cases hp : pred i (docDataOf s i).status (docDataOf s i).rating = true
      · have hself : alookup ((i, tf) :: ps) i = some tf := by simp [alookup]
        rw [if_pos hp, ih hnd', if_pos hp, alookup_eq_none_of_not_mem hi_notin,
          if_pos hp, hself]
        cases halm : alookup m i with
        | none =>
          rw [bumpAdd_lookup_self_none _ halm]
          simp
        | some v =>
          rw [bumpAdd_lookup_self_some _ halm]
          simp
      · rw [if_neg hp, ih hnd', if_neg hp, if_neg hp]
    · have hcons : alookup ((i, tf) :: ps) j = alookup ps j := by simp [alookup, hij]
      have hji : j ≠ i := fun h => hij h.symm
      by_cases hpi : pred i (docDataOf s i).status (docDataOf s i).rating = true
      · rw [if_pos hpi, ih hnd', hcons, bumpAdd_lookup_other _ hji]
      · rw [if_neg hpi, ih hnd', hcons]

theorem termContribution_eq_zero {s : Server} {j : Int} {w : Word}
    (h : hasPosting s w j = false) : termContribution s j w = 0 := by
  unfold termContribution
  unfold hasPosting at h
  cases hl : alookup s.word_to_document_freqs_ w with
  | none => rfl
  | some ps =>
    rw [hl] at h
    dsimp only at h ⊢
    cases hpj : alookup ps j with
    | some tf =>
      rw [hpj] at h
      simp at h
    | none => simp [hpj]

theorem termSum_zero {s : Server} {j : Int} {ws : List Word}
    (h : ∀ w ∈ ws, hasPosting s w j = false) :
    (ws.map (termContribution s j)).sum = 0 := by
  induction ws with
  | nil => simp
  | cons w ws ih =>
    rw [List.map_cons, List.sum_cons,
      termContribution_eq_zero (h w (List.mem_cons_self _ _)),
      ih (fun w' hw' => h w' (List.mem_cons_of_mem _ hw')), zero_add]

theorem processPlusWords_lookup {s : Server} {pred : DocumentPredicate}
    {ws : List Word} {m : List (Int × ℝ)} {j : Int}
    (hwf : ∀ e ∈ s.word_to_document_freqs_, (e.2.map Prod.fst).Nodup)
    (hp : pred j (docDataOf s j).status (docDataOf s j).rating = true) :
    alookup (processPlusWords s pred ws m) j =
      if ws.any (fun w => hasPosting s w j) = true then
        some ((alookup m j).getD 0 + (ws.map (termContribution s j)).sum)
      else alookup m j := by
  induction ws generalizing m with
  | nil => simp [processPlusWords_nil]
  | cons w ws ih =>
    cases hl : alookup s.word_to_document_freqs_ w with
    | none =>
      have hhp : hasPosting s w j = false := by
        unfold hasPosting
        rw [hl]
      rw [processPlusWords_cons_none pred ws m hl, ih, List.map_cons, List.sum_cons,
        termContribution_eq_zero hhp, zero_add, List.any_cons, hhp, Bool.false_or]
    | some ps =>
      have hnd : (ps.map Prod.fst).Nodup := hwf (w, ps) (alookup_mem hl)
      rw [processPlusWords_cons_some pred ws m hl]
      cases hpj : alookup ps j with
      | some tf =>
        have hm' : alookup
            (processPostings s pred (ComputeWordInverseDocumentFreq s w) ps m) j =
            some ((alookup m j).getD 0 +
              (tf : ℝ) * ComputeWordInverseDocumentFreq s w) := by
          rw [processPostings_lookup hnd, if_pos hp, hpj]
        have hhp : hasPosting s w j = true := by
          unfold hasPosting
          rw [hl]
          dsimp only
          rw [hpj]
          rfl
        have hterm : termContribution s j w =
            (tf : ℝ) * ComputeWordInverseDocumentFreq s w := by
          unfold termContribution ComputeWordInverseDocumentFreq
          rw [hl]
          dsimp only
          rw [hpj]
          rfl
        rw [ih, hm', List.any_cons, hhp, Bool.true_or, if_pos rfl,
          List.map_cons, List.sum_cons, hterm]
        by_cases hany : ws.any (fun w' => hasPosting s w' j) = true
        · rw [if_pos hany]
          simp [add_assoc]
        · rw [if_neg hany]
          have hz : (ws.map (termContribution s j)).sum = 0 := by
            refine termSum_zero ?_
            intro w' hw'
            rcases Bool.eq_false_or_eq_true (hasPosting s w' j) with ht | hf
            · exact absurd (List.any_eq_true.mpr ⟨w', hw', ht⟩) hany
            · exact hf
          rw [hz, add_zero]
      | none =>
        have hm' : alookup
            (processPostings s pred (ComputeWordInverseDocumentFreq s w) ps m) j =
            alookup m j := by
          rw [processPostings_lookup hnd, if_pos hp, hpj]
        have hhp : hasPosting s w j = false := by
          unfold hasPosting
          rw [hl]
          dsimp only
          rw [hpj]
          rfl
        rw [ih, hm', List.map_cons, List.sum_cons,
          termContribution_eq_zero hhp, zero_add, List.any_cons, hhp, Bool.false_or]

theorem processPlusWords_lookup_predFalse {s : Server} {pred : DocumentPredicate}
    {ws : List Word} {m : List (Int × ℝ)} {j : Int}
    (hwf : ∀ e ∈ s.word_to_document_freqs_, (e.2.map Prod.fst).Nodup)
    (hp : pred j (docDataOf s j).status (docDataOf s j).rating = false) :
    alookup (processPlusWords s pred ws m) j = alookup m j := by
  induction ws generalizing m with
  | nil => rfl
  | cons w ws ih =>
    cases hl : alookup s.word_to_document_freqs_ w with
    | none =>
      rw [processPlusWords_cons_none pred ws m hl, ih]
    | some ps =>
      have hnd : (ps.map Prod.fst).Nodup := hwf (w, ps) (alookup_mem hl)
      rw [processPlusWords_cons_some pred ws m hl, ih,
        processPostings_lookup hnd, if_neg (by simp [hp])]

theorem bumpAdd_keys_nodup {β : Type} [Add β] {m : List (Int × β)} {id : Int} {x : β}
    (h : (m.map Prod.fst).Nodup) : ((bumpAdd m id x).map Prod.fst).Nodup := by
  rw [bumpAdd_keys]
  by_cases hm : id ∈ m.map Prod.fst
  · rw [if_pos hm]
    exact h
  · rw [if_neg hm]
    rw [List.nodup_append]
    refine ⟨h, List.nodup_singleton _, ?_⟩
    intro a ha hb
    rw [List.mem_singleton] at hb
    subst hb
    exact hm ha

theorem processPostings_keys_nodup {s : Server} {pred : DocumentPredicate} {idf : ℝ}
    {ps : List (Int × ℚ)} {m : List (Int × ℝ)} (h : (m.map Prod.fst).Nodup) :
    ((processPostings s pred idf ps m).map Prod.fst).Nodup := by
  induction ps generalizing m with
  | nil => exact h
  | cons p ps ih =>
    obtain ⟨i, tf⟩ := p
    rw [processPostings_cons]
    by_cases hp : pred i (docDataOf s i).status (docDataOf s i).rating = true
    · rw [if_pos hp]
      exact ih (bumpAdd_keys_nodup h)
    · rw [if_neg hp]
      exact ih h

theorem processPlusWords_keys_nodup {s : Server} {pred : DocumentPredicate}
    {ws : List Word} {m : List (Int × ℝ)} (h : (m.map Prod.fst).Nodup) :
    ((processPlusWords s pred ws m).map Prod.fst).Nodup := by
  induction ws generalizing m with
  | nil => exact h
  | cons w ws ih =>
    cases hl : alookup s.word_to_document_freqs_ w with
    | none =>
      rw [processPlusWords_cons_none pred ws m hl]
      exact ih h
    | some ps =>
      rw [processPlusWords_cons_some pred ws m hl]
      exact ih (processPostings_keys_nodup h)

/-- C1: the relevance `FindTopDocuments` computes for a candidate
document equals the sum, over the query's required terms present in the
inverted index, of the document's term frequency times
`ln(total documents / documents containing the term)`; an absent term
contributes nothing and causes no error (`relevanceSpec` is exactly the
spec's formula). -/
theorem claim_C1 (s : Server) (raw_query : List Char) (pred : DocumentPredicate)
    (res : List Document) (q : Query) (d : Document)
    (hwf : WellFormed s)
    (hok : FindTopDocuments s raw_query pred = .ok res)
    (hq : ParseQuery s raw_query = .ok q)
    (hd : d ∈ res) :
    d.relevance = relevanceSpec s q d.id := by
  obtain ⟨q', hq', hcase⟩ := findTopDocuments_ok hok
  rw [hq] at hq'
  have hqq : q = q' := by simpa using hq'
  subst hqq
  rcases hcase with ⟨_, _, _, hres⟩ | hres
  · subst hres
    simp at hd
  · have hmem : d ∈ FindAllDocuments s q pred := by
      rw [hres] at hd
      by_cases hlen : MAX_RESULT_DOCUMENT_COUNT <
          (sortDocs (FindAllDocuments s q pred)).length
      · rw [if_pos hlen] at hd
        exact (mem_sortDocs _ _).mp (List.take_subset _ _ hd)
      · rw [if_neg hlen] at hd
        exact (mem_sortDocs _ _).mp hd
    unfold FindAllDocuments at hmem
    obtain ⟨p, hp, hdp⟩ := List.mem_map.mp hmem
    have hpm : p ∈ processPlusWords s pred q.plus_words [] :=
      (mem_processMinusWords hp).1
    have hnd : ((processPlusWords s pred q.plus_words []).map Prod.fst).Nodup :=
      processPlusWords_keys_nodup (by simp)
    have hlook : alookup (processPlusWords s pred q.plus_words []) p.1 = some p.2 :=
      alookup_of_mem_nodup hnd (by simpa using hpm)
    subst hdp
    by_cases hpred : pred p.1 (docDataOf s p.1).status (docDataOf s p.1).rating = true
    · rw [processPlusWords_lookup hwf.2 hpred] at hlook
      by_cases hany : q.plus_words.any (fun w => hasPosting s w p.1) = true
      · rw [if_pos hany] at hlook
        have hval : ((alookup ([] : List (Int × ℝ)) p.1).getD 0 +
            (q.plus_words.map (termContribution s p.1)).sum) = p.2 :=
          Option.some.inj hlook
        show p.2 = relevanceSpec s q p.1
        rw [← hval]
        simp [relevanceSpec, alookup]
      · rw [if_neg hany] at hlook
        exact absurd hlook (by simp [alookup])
    · have hfalse : pred p.1 (docDataOf s p.1).status (docDataOf s p.1).rating
          = false := by
        rcases Bool.eq_false_or_eq_true
          (pred p.1 (docDataOf s p.1).status (docDataOf s p.1).rating) with ht | hf
        · exact absurd ht hpred
        · exact hf
      rw [processPlusWords_lookup_predFalse hwf.2 hfalse] at hlook
      exact absurd hlook (by simp [alookup])

/-- Witness for C1: a one-document corpus containing the single word
"b", queried with "b": the head of the result satisfies the formula. -/
theorem claim_C1_witness :
    (((FindTopDocuments ⟨[], [(['b'], [(1, 1)])], [(1, ⟨3, DocumentStatus.ACTUAL⟩)], [1]⟩
        ['b'] (fun _ _ _ => true)).toOption.getD []).headD ⟨0, 0, 0⟩).relevance =
      relevanceSpec ⟨[], [(['b'], [(1, 1)])], [(1, ⟨3, DocumentStatus.ACTUAL⟩)], [1]⟩
        ⟨[['b']], [], []⟩
        ((((FindTopDocuments ⟨[], [(['b'], [(1, 1)])], [(1, ⟨3, DocumentStatus.ACTUAL⟩)], [1]⟩
          ['b'] (fun _ _ _ => true)).toOption.getD []).headD ⟨0, 0, 0⟩).id) :=
  claim_C1 ⟨[], [(['b'], [(1, 1)])], [(1, ⟨3, DocumentStatus.ACTUAL⟩)], [1]⟩
    ['b'] (fun _ _ _ => true)
    ((FindTopDocuments ⟨[], [(['b'], [(1, 1)])], [(1, ⟨3, DocumentStatus.ACTUAL⟩)], [1]⟩
        ['b'] (fun _ _ _ => true)).toOption.getD [])
    ⟨[['b']], [], []⟩
    (((FindTopDocuments ⟨[], [(['b'], [(1, 1)])], [(1, ⟨3, DocumentStatus.ACTUAL⟩)], [1]⟩
        ['b'] (fun _ _ _ => true)).toOption.getD []).headD ⟨0, 0, 0⟩)
    ⟨by decide, by decide⟩ rfl rfl (List.mem_singleton_self _)

end SearchServer3
